import Mathlib

/-!
Shallow embedding of the UniswapGetPosition repository (src/main.go) and
verification of its specification claims.

Bytes are modelled as natural numbers below 256 inside plain lists; Go's
arbitrary-precision integers (math/big.Int) become Lean integers, and Go's
(value, error) returns become Except values.
-/

namespace UniswapGetPosition

/-- Go's big.Int.Bytes(): the big-endian base-256 digits of the absolute
value, with no leading zero bytes; the empty list for zero. -/
def bigIntBytes (n : Nat) : List Nat :=
  if h : n = 0 then [] else bigIntBytes (n / 256) ++ [n % 256]
decreasing_by
  exact Nat.div_lt_self (Nat.pos_of_ne_zero h) (by norm_num)

/-- Embedding of int24Bytes (src/main.go lines 108-120).
The Go code allocates a zeroed 3-byte buffer, replaces a negative argument n
by 2^24 - (-n), and then copies the low-order (at most 3) bytes of the
big-endian representation of the absolute value into the FRONT of that
buffer, so a short representation is padded with trailing zero bytes. -/
def int24Bytes (n : Int) : List Nat :=
  let m : Int := if n < 0 then (2 ^ 24 : Int) - (0 - n) else n
  let src := bigIntBytes m.natAbs
  let copied := src.drop (src.length - 3)
  (copied ++ List.replicate 3 0).take 3

/-- Reference decoder taken from the spec's words (section 8's round-trip
law): interpret 3 bytes as a big-endian 24-bit two's-complement integer. -/
def decodeInt24 (bs : List Nat) : Int :=
  let u : Nat := bs.foldl (fun acc b => acc * 256 + b) 0
  if u < 2 ^ 23 then (u : Int) else (u : Int) - 2 ^ 24

/-- The 3-byte big-endian serialization of a natural number below 2^24. -/
def toBE3 (m : Nat) : List Nat :=
  [m / 65536 % 256, m / 256 % 256, m % 256]

/-- Go's common.Address: a fixed array of 20 bytes. -/
structure Address where
  bytes : List Nat
  len20 : bytes.length = 20

/-- One dynamically typed argument of encodePacked (Go interface value).
The switch in encodePacked (src/main.go lines 88-102) recognises
common.Address, big.Int, int32, string and byte-slice values; every other
dynamic type reaches the default branch carrying only its type name. -/
inductive Arg where
  | address (a : Address)
  | bigInt (n : Int)
  | i32 (v : Int)
  | str (s : List Nat)
  | bytes (b : List Nat)
  | other (typeName : String)

/-- Embedding of encodePacked (src/main.go lines 84-106): the arguments are
processed left to right, each supported value's bytes are appended to the
buffer, and the first unsupported value aborts with an error naming its
type (Go returns nil together with the error). -/
def encodePacked : List Arg → Except String (List Nat)
  | [] => Except.ok []
  | a :: rest =>
    match a with
    | Arg.address ad =>
      (encodePacked rest).map (fun tl => ad.bytes ++ tl)
    | Arg.bigInt n =>
      (encodePacked rest).map (fun tl => int24Bytes n ++ tl)
    | Arg.i32 v =>
      (encodePacked rest).map (fun tl => int24Bytes v ++ tl)
    | Arg.str s =>
      (encodePacked rest).map (fun tl => s ++ tl)
    | Arg.bytes b =>
      (encodePacked rest).map (fun tl => b ++ tl)
    | Arg.other t =>
      Except.error ("unsupported type: " ++ t)

/-- An argument is supported when the switch of encodePacked has a case for
its dynamic type, i.e. it is not in the default branch. -/
def Arg.supported : Arg → Bool
  | Arg.other _ => false
  | _ => true

/-- The declared byte width each supported argument contributes to the
packed buffer: 20 for an address, 3 for an int24, the literal length for
string and byte-slice values. -/
def Arg.width : Arg → Nat
  | Arg.address _ => 20
  | Arg.bigInt _ => 3
  | Arg.i32 _ => 3
  | Arg.str s => s.length
  | Arg.bytes b => b.length
  | Arg.other _ => 0

/-! ### Keccak-256

calcPositionKey hashes the packed buffer with crypto.Keccak256Hash from
go-ethereum: the original Keccak-256 (pad10*1 with domain byte 0x01, rate
1088 bits, 32-byte digest). The permutation below is the standard
Keccak-f[1600]; the 25 lanes are 64-bit words stored as naturals, lane
(x, y) at list index x + 5 * y. -/

/-- Rotate a 64-bit lane left by r bits (0 < r < 64). -/
def rotl64 (x r : Nat) : Nat :=
  ((x <<< r) ||| (x >>> (64 - r))) % 2 ^ 64

/-- Bitwise complement of a 64-bit lane. -/
def not64 (x : Nat) : Nat :=
  x ^^^ (2 ^ 64 - 1)

/-- Read lane (x, y) of the state. -/
def lane (s : List Nat) (x y : Nat) : Nat :=
  s.getD (x % 5 + 5 * (y % 5)) 0

/-- The theta step of Keccak-f. -/
def theta (s : List Nat) : List Nat :=
  let c := fun x => lane s x 0 ^^^ lane s x 1 ^^^ lane s x 2 ^^^ lane s x 3 ^^^ lane s x 4
  let d := fun x => c ((x + 4) % 5) ^^^ rotl64 (c ((x + 1) % 5)) 1
  (List.range 25).map (fun i => s.getD i 0 ^^^ d (i % 5))

/-- The rotation offset of the rho step for the lane at index x + 5 * y. -/
def rhoOffset : Nat → Nat
  | 1 => 1
  | 2 => 62
  | 3 => 28
  | 4 => 27
  | 5 => 36
  | 6 => 44
  | 7 => 6
  | 8 => 55
  | 9 => 20
  | 10 => 3
  | 11 => 10
  | 12 => 43
  | 13 => 25
  | 14 => 39
  | 15 => 41
  | 16 => 45
  | 17 => 15
  | 18 => 21
  | 19 => 8
  | 20 => 18
  | 21 => 2
  | 22 => 61
  | 23 => 56
  | 24 => 14
  | _ => 0

/-- The combined rho and pi steps: output lane (X, Y) with X = y and
Y = (2x + 3y) mod 5 is the input lane (x, y) rotated by its offset;
inverting the index map gives x = (X + 3Y) mod 5 and y = X. -/
def rhoPi (s : List Nat) : List Nat :=
  (List.range 25).map (fun j =>
    let X := j % 5
    let Y := j / 5
    let x := (X + 3 * Y) % 5
    let y := X
    let r := rhoOffset (x + 5 * y)
    if r = 0 then lane s x y else rotl64 (lane s x y) r)

/-- The chi step of Keccak-f. -/
def chi (b : List Nat) : List Nat :=
  (List.range 25).map (fun j =>
    let x := j % 5
    let y := j / 5
    b.getD j 0 ^^^ (not64 (b.getD ((x + 1) % 5 + 5 * y) 0) &&& b.getD ((x + 2) % 5 + 5 * y) 0))

/-- The iota round constant of round i (the standard 24 Keccak round
constants, written in decimal). -/
def roundConstant : Nat → Nat
  | 0 => 1
  | 1 => 32898
  | 2 => 9223372036854808714
  | 3 => 9223372039002292224
  | 4 => 32907
  | 5 => 2147483649
  | 6 => 9223372039002292353
  | 7 => 9223372036854808585
  | 8 => 138
  | 9 => 136
  | 10 => 2147516425
  | 11 => 2147483658
  | 12 => 2147516555
  | 13 => 9223372036854775947
  | 14 => 9223372036854808713
  | 15 => 9223372036854808579
  | 16 => 9223372036854808578
  | 17 => 9223372036854775936
  | 18 => 32778
  | 19 => 9223372039002259466
  | 20 => 9223372039002292353
  | 21 => 9223372036854808704
  | 22 => 2147483649
  | 23 => 9223372039002292232
  | _ => 0

/-- One round of Keccak-f[1600]. -/
def keccakRound (s : List Nat) (rc : Nat) : List Nat :=
  match chi (rhoPi (theta s)) with
  | [] => []
  | h :: t => (h ^^^ rc) :: t

/-- The full 24-round Keccak-f[1600] permutation. -/
def keccakF (s : List Nat) : List Nat :=
  (List.range 24).foldl (fun st i => keccakRound st (roundConstant i)) s

/-- Keccak pad10*1 with domain byte 0x01 to a multiple of the 136-byte
rate (the legacy Keccak padding used by Ethereum, not SHA-3's 0x06). -/
def keccakPad (msg : List Nat) : List Nat :=
  let padLen := 136 - msg.length % 136
  if padLen = 1 then msg ++ [0x81]
  else msg ++ [0x01] ++ List.replicate (padLen - 2) 0 ++ [0x80]

/-- A 64-bit lane from (up to) 8 little-endian bytes. -/
def bytesToLane (bs : List Nat) : Nat :=
  bs.foldr (fun b acc => b + 256 * acc) 0

/-- XOR one 136-byte block into the first 17 lanes and permute. -/
def absorbBlock (s block : List Nat) : List Nat :=
  keccakF ((List.range 25).map (fun i =>
    if i < 17 then s.getD i 0 ^^^ bytesToLane ((block.drop (8 * i)).take 8)
    else s.getD i 0))

/-- The 8 little-endian bytes of a 64-bit lane. -/
def laneToBytes (n : Nat) : List Nat :=
  (List.range 8).map (fun i => n / 256 ^ i % 256)

/-- Keccak-256 of a byte sequence: absorb all padded blocks into the
all-zero state and squeeze the first 32 bytes (4 lanes). -/
def keccak256 (msg : List Nat) : List Nat :=
  let padded := keccakPad msg
  let s := (List.range (padded.length / 136)).foldl
    (fun st i => absorbBlock st ((padded.drop (136 * i)).take 136))
    (List.replicate 25 0)
  ((List.range 4).map (fun i => laneToBytes (s.getD i 0))).flatten

/-- Embedding of calcPositionKey (src/main.go lines 72-79): packed-encode
(owner address, tickLower, tickUpper) and hash the buffer with Keccak-256.
Go returns (common.Hash{}, err) when encoding fails. -/
def calcPositionKey (address : Address) (tickLower tickUpper : Int) :
    Except String (List Nat) :=
  match encodePacked [Arg.address address, Arg.i32 tickLower, Arg.i32 tickUpper] with
  | Except.error e => Except.error e
  | Except.ok callData => Except.ok (keccak256 callData)

/-- The owner address constant of src/main.go line 40:
0xF829c130478599E4EF49F6e02EDaA1F8736E9B00. -/
def ownerPositionAddress : Address :=
  ⟨[0xF8, 0x29, 0xC1, 0x30, 0x47, 0x85, 0x99, 0xE4, 0xEF, 0x49,
    0xF6, 0xE0, 0x2E, 0xDA, 0xA1, 0xF8, 0x73, 0x6E, 0x9B, 0x00], rfl⟩

/-- tickLower constant of src/main.go line 41. -/
def tickLower : Int := -197740

/-- tickUpper constant of src/main.go line 42. -/
def tickUpper : Int := -197640

/-! ### Structured response decoder -/

/-- The Position record of src/main.go lines 18-24; each field is an
arbitrary-precision non-negative integer. -/
structure Position where
  liquidity : Nat
  feeGrowthInside0LastX128 : Nat
  feeGrowthInside1LastX128 : Nat
  tokensOwed0 : Nat
  tokensOwed1 : Nat
deriving DecidableEq

/-- A 32-byte word of the response read as a big-endian unsigned integer. -/
def wordAt (raw : List Nat) (i : Nat) : Nat :=
  ((raw.drop (32 * i)).take 32).foldl (fun acc b => acc * 256 + b) 0

/-- Modelled from the spec: the structured decoder applied in main
(src/main.go lines 63-67) is go-ethereum's abi.UnpackIntoInterface, whose
body is not part of this repository. Per the spec's StructuredDecoder
contract, the five fields (uint128, uint256, uint256, uint128, uint128)
each occupy one 32-byte word of the standard word-aligned tuple return, so
the schema requires 160 bytes; a shorter buffer fails with a
malformed-response error, as does a field value exceeding its declared
bit-width, and otherwise the five words are read big-endian in schema
order. -/
def decodePositions (raw : List Nat) : Except String Position :=
  if raw.length < 160 then
    Except.error "abi: malformed response: insufficient length"
  else
    let liquidity := wordAt raw 0
    let fee0 := wordAt raw 1
    let fee1 := wordAt raw 2
    let owed0 := wordAt raw 3
    let owed1 := wordAt raw 4
    if liquidity < 2 ^ 128 ∧ owed0 < 2 ^ 128 ∧ owed1 < 2 ^ 128 then
      Except.ok ⟨liquidity, fee0, fee1, owed0, owed1⟩
    else
      Except.error "abi: malformed response: value exceeds bit width"

/-! ### Lemmas about the byte-level serialization -/

lemma bigIntBytes_zero : bigIntBytes 0 = [] := by
  rw [bigIntBytes]
  simp

lemma bigIntBytes_pos (n : Nat) (h : n ≠ 0) :
    bigIntBytes n = bigIntBytes (n / 256) ++ [n % 256] := by
  rw [bigIntBytes]
  simp [h]

lemma toBE3_length (m : Nat) : (toBE3 m).length = 3 := by
  simp [toBE3]

/-- A natural in [2^16, 2^24) serializes to exactly its three base-256
digits. -/
lemma bigIntBytes_three (m : Nat) (h1 : 65536 ≤ m) (h2 : m < 16777216) :
    bigIntBytes m = toBE3 m := by
  have e3 : m / 256 / 256 / 256 = 0 := by omega
  rw [bigIntBytes_pos m (by omega), bigIntBytes_pos (m / 256) (by omega),
    bigIntBytes_pos (m / 256 / 256) (by omega), e3, bigIntBytes_zero]
  simp only [List.nil_append, List.cons_append, toBE3, List.cons.injEq, and_true]
  omega

/-- For any natural with at least three base-256 digits, the serialization
ends in the three digits of its value modulo 2^24. -/
lemma bigIntBytes_suffix (n : Nat) :
    65536 ≤ n → ∃ pre, bigIntBytes n = pre ++ toBE3 (n % 16777216) := by
  induction n using Nat.strong_induction_on with
  | _ n ih =>
    intro h
    by_cases hlt : n < 16777216
    · exact ⟨[], by rw [bigIntBytes_three n h hlt, Nat.mod_eq_of_lt hlt]; simp⟩
    · obtain ⟨pre, hpre⟩ := ih (n / 256) (by omega) (by omega)
      refine ⟨pre ++ [n / 16777216 % 256], ?_⟩
      have key : toBE3 (n / 256 % 16777216) ++ [n % 256]
          = n / 16777216 % 256 :: toBE3 (n % 16777216) := by
        simp only [toBE3, List.cons_append, List.nil_append, List.cons.injEq, and_true]
        omega
      rw [bigIntBytes_pos n (by omega), hpre, List.append_assoc, key]
      simp

lemma bigIntBytes_length_le (k : Nat) :
    ∀ n : Nat, n < 256 ^ k → (bigIntBytes n).length ≤ k := by
  induction k with
  | zero =>
    intro n h
    norm_num at h
    simp [h, bigIntBytes_zero]
  | succ k ih =>
    intro n h
    by_cases h0 : n = 0
    · simp [h0, bigIntBytes_zero]
    · rw [bigIntBytes_pos n h0]
      have hdiv : n / 256 < 256 ^ k := by
        rw [Nat.div_lt_iff_lt_mul (by norm_num)]
        calc n < 256 ^ (k + 1) := h
        _ = 256 ^ k * 256 := by ring
      have := ih (n / 256) hdiv
      simp only [List.length_append, List.length_cons, List.length_nil]
      omega

lemma take3_append_pad (l : List Nat) (h : l.length = 3) :
    (l ++ List.replicate 3 0).take 3 = l := by
  rw [← h, List.take_left]

/-- int24Bytes is the last three base-256 digits, for any natural argument
with at least three digits. -/
lemma int24Bytes_ofNat_large (n : Nat) (h : 65536 ≤ n) :
    int24Bytes (n : Int) = toBE3 (n % 16777216) := by
  obtain ⟨pre, hpre⟩ := bigIntBytes_suffix n h
  have hnotneg : ¬ ((n : Int) < 0) := by omega
  have habs : (n : Int).natAbs = n := Int.natAbs_ofNat n
  simp only [int24Bytes, if_neg hnotneg, habs, hpre]
  have hlen : (pre ++ toBE3 (n % 16777216)).length - 3 = pre.length := by
    simp [toBE3]
  rw [hlen, List.drop_left, take3_append_pad _ (toBE3_length _)]

/-- int24Bytes of a negative in-range value is the 3-byte serialization of
its two's complement 2^24 + v. -/
lemma int24Bytes_neg (v : Int) (h1 : -(2 ^ 23) ≤ v) (h2 : v < 0) :
    int24Bytes v = toBE3 (2 ^ 24 + v).toNat := by
  have habs : ((2 ^ 24 : Int) - (0 - v)).natAbs = (2 ^ 24 + v).toNat := by omega
  have hM1 : 65536 ≤ (2 ^ 24 + v).toNat := by omega
  have hM2 : (2 ^ 24 + v).toNat < 16777216 := by omega
  simp only [int24Bytes, if_pos h2, habs, bigIntBytes_three _ hM1 hM2, toBE3_length]
  rw [show 3 - 3 = 0 from rfl, List.drop_zero, take3_append_pad _ (toBE3_length _)]

lemma int24Bytes_one : int24Bytes 1 = [1, 0, 0] := by
  have h1 : bigIntBytes 1 = [1] := by
    rw [bigIntBytes_pos 1 (by norm_num)]
    norm_num [bigIntBytes_zero]
  have hif : (if (1 : Int) < 0 then (2 ^ 24 : Int) - (0 - 1) else 1) = 1 := by norm_num
  simp only [int24Bytes, hif, Int.natAbs_one, h1]
  decide

lemma int24Bytes_neg197740 : int24Bytes (-197740) = [0xFC, 0xFB, 0x94] := by
  rw [int24Bytes_neg (-197740) (by norm_num) (by norm_num)]
  simp only [toBE3, List.cons.injEq, and_true]
  omega

lemma int24Bytes_neg197640 : int24Bytes (-197640) = [0xFC, 0xFB, 0xF8] := by
  rw [int24Bytes_neg (-197640) (by norm_num) (by norm_num)]
  simp only [toBE3, List.cons.injEq, and_true]
  omega

/-! ### Claims C1-C3: the int24 serialization -/

/-- C1: the claim states that int24Bytes left-zero-pads a short big-endian
representation, so that encoding v = 1 yields 0x00 0x00 0x01. The code
copies the significant bytes to the front of the zeroed buffer instead, so
int24Bytes 1 is 0x01 0x00 0x00: the significant byte first, padded with
trailing zeros. -/
theorem C1_int24Bytes_pads_on_the_right :
    int24Bytes 1 = [0x01, 0x00, 0x00] ∧ int24Bytes 1 ≠ [0x00, 0x00, 0x01] := by
  rw [int24Bytes_one]
  exact ⟨rfl, by decide⟩

/-- C2: the claim states the round-trip law decodeInt24 (int24Bytes v) = v
over all of [-2^23, 2^23-1]. It fails at v = 1: the trailing-zero padding
makes the encoding of 1 read back as 65536. -/
theorem C2_roundtrip_fails_at_one :
    decodeInt24 (int24Bytes 1) = 65536 ∧ (65536 : Int) ≠ 1 := by
  rw [int24Bytes_one]
  exact ⟨by norm_num [decodeInt24], by norm_num⟩

/-- C3 counterexample: the claim's literal for int24Bytes (-197740) is
0xFC 0xFF 0x94, but the code produces 0xFC 0xFB 0x94 (the correct two's
complement of -197740: 2^24 - 197740 = 0xFCFB94). -/
theorem C3_literal_wrong :
    int24Bytes (-197740) ≠ [0xFC, 0xFF, 0x94] := by
  rw [int24Bytes_neg197740]
  decide

/-- C3 (amended): every negative in-range value v is encoded as the 3-byte
big-endian serialization of the unsigned integer 2^24 + v; concretely,
int24Bytes (-197740) is 0xFC 0xFB 0x94 and int24Bytes (-197640) is
0xFC 0xFB 0xF8. -/
theorem C3_negative_twos_complement :
    (∀ v : Int, -(2 ^ 23) ≤ v → v < 0 → int24Bytes v = toBE3 (2 ^ 24 + v).toNat)
    ∧ int24Bytes (-197740) = [0xFC, 0xFB, 0x94]
    ∧ int24Bytes (-197640) = [0xFC, 0xFB, 0xF8] :=
  ⟨int24Bytes_neg, int24Bytes_neg197740, int24Bytes_neg197640⟩

/-- C3 witness: the amended claim applied at v = -1. -/
theorem C3_negative_twos_complement_witness :
    int24Bytes (-1) = toBE3 ((2 : Int) ^ 24 + (-1)).toNat :=
  C3_negative_twos_complement.1 (-1) (by norm_num) (by norm_num)

/-! ### Lemmas about the packed encoder -/

lemma int24Bytes_length (n : Int) : (int24Bytes n).length = 3 := by
  simp only [int24Bytes, List.length_take, List.length_append, List.length_replicate]
  omega

/-- The bytes a single supported argument contributes to the buffer. -/
def argEncoding : Arg → List Nat
  | Arg.address ad => ad.bytes
  | Arg.bigInt n => int24Bytes n
  | Arg.i32 v => int24Bytes v
  | Arg.str s => s
  | Arg.bytes b => b
  | Arg.other _ => []

lemma encodePacked_cons_supported (a : Arg) (ha : a.supported = true) (rest : List Arg) :
    encodePacked (a :: rest) = (encodePacked rest).map (fun tl => argEncoding a ++ tl) := by
  cases a <;> simp_all [encodePacked, argEncoding, Arg.supported]

lemma argEncoding_length (a : Arg) (ha : a.supported = true) :
    (argEncoding a).length = a.width := by
  cases a <;> simp_all [argEncoding, Arg.width, Arg.supported, int24Bytes_length,
    Address.len20]

lemma encodePacked_ok (args : List Arg) (h : ∀ x ∈ args, x.supported = true) :
    ∃ buf, encodePacked args = Except.ok buf ∧ buf.length = (args.map Arg.width).sum := by
  induction args with
  | nil => exact ⟨[], rfl, rfl⟩
  | cons a rest ih =>
    obtain ⟨buf, hbuf, hlen⟩ := ih (fun x hx => h x (List.mem_cons_of_mem a hx))
    have ha := h a (List.mem_cons_self a rest)
    refine ⟨argEncoding a ++ buf, ?_, ?_⟩
    · rw [encodePacked_cons_supported a ha, hbuf]
      rfl
    · simp [hlen, argEncoding_length a ha]

lemma encodePacked_append (xs ys : List Arg) (bx byy : List Nat)
    (hx : encodePacked xs = Except.ok bx) (hy : encodePacked ys = Except.ok byy) :
    encodePacked (xs ++ ys) = Except.ok (bx ++ byy) := by
  induction xs generalizing bx with
  | nil =>
    simp only [encodePacked, Except.ok.injEq] at hx
    simp [← hx, hy]
  | cons a xs ih =>
    by_cases ha : a.supported = true
    · rw [encodePacked_cons_supported a ha] at hx
      cases hxs : encodePacked xs with
      | error e => rw [hxs] at hx; simp [Except.map] at hx
      | ok tl =>
        rw [hxs] at hx
        simp only [Except.map, Except.ok.injEq] at hx
        rw [List.cons_append, encodePacked_cons_supported a ha, ih tl hxs]
        simp [← hx, Except.map, List.append_assoc]
    · cases a with
      | other t => simp [encodePacked] at hx
      | address ad => simp [Arg.supported] at ha
      | bigInt n => simp [Arg.supported] at ha
      | i32 v => simp [Arg.supported] at ha
      | str s => simp [Arg.supported] at ha
      | bytes b => simp [Arg.supported] at ha

lemma encodePacked_error_of_other (args : List Arg) (t : String)
    (hmem : Arg.other t ∈ args) :
    ∃ t2, Arg.other t2 ∈ args
      ∧ encodePacked args = Except.error ("unsupported type: " ++ t2) := by
  induction args with
  | nil => cases hmem
  | cons a rest ih =>
    by_cases ha : a.supported = true
    · have hmem2 : Arg.other t ∈ rest := by
        rcases List.mem_cons.mp hmem with heq | h
        · rw [← heq] at ha
          simp [Arg.supported] at ha
        · exact h
      obtain ⟨t2, ht2, henc⟩ := ih hmem2
      refine ⟨t2, List.mem_cons_of_mem a ht2, ?_⟩
      rw [encodePacked_cons_supported a ha, henc]
      rfl
    · cases a with
      | other t0 => exact ⟨t0, List.mem_cons_self _ _, by simp [encodePacked]⟩
      | address ad => simp [Arg.supported] at ha
      | bigInt n => simp [Arg.supported] at ha
      | i32 v => simp [Arg.supported] at ha
      | str s => simp [Arg.supported] at ha
      | bytes b => simp [Arg.supported] at ha

lemma laneToBytes_length (n : Nat) : (laneToBytes n).length = 8 := by
  simp [laneToBytes]

lemma keccak256_length (msg : List Nat) : (keccak256 msg).length = 32 := by
  simp only [keccak256, show List.range 4 = [0, 1, 2, 3] from rfl]
  simp [laneToBytes_length]

/-! ### Claims C4-C10 -/

/-- C4: calcPositionKey is total and deterministic: on every (address,
tickLower, tickUpper) it succeeds, the key has exactly 32 bytes, and any
two results of the same inputs coincide. -/
theorem C4_calcPositionKey_total_deterministic (a : Address) (t1 t2 : Int) :
    ∃ k, calcPositionKey a t1 t2 = Except.ok k ∧ k.length = 32
      ∧ ∀ k2, calcPositionKey a t1 t2 = Except.ok k2 → k2 = k := by
  obtain ⟨buf, hbuf, -⟩ :=
    encodePacked_ok [Arg.address a, Arg.i32 t1, Arg.i32 t2] (by simp [Arg.supported])
  refine ⟨keccak256 buf, ?_, keccak256_length buf, ?_⟩
  · simp [calcPositionKey, hbuf]
  · intro k2 h2
    simp [calcPositionKey, hbuf] at h2
    exact h2.symm

/-- C4 witness: the theorem applied at the program's own constants. -/
theorem C4_calcPositionKey_total_deterministic_witness :
    ∃ k, calcPositionKey ownerPositionAddress tickLower tickUpper = Except.ok k
      ∧ k.length = 32
      ∧ ∀ k2, calcPositionKey ownerPositionAddress tickLower tickUpper = Except.ok k2
          → k2 = k :=
  C4_calcPositionKey_total_deterministic ownerPositionAddress tickLower tickUpper

/-- C5: encodePacked always succeeds on an (Address, int32, int32) triple
with a 26-byte buffer, and in general a buffer of supported arguments has
length the sum of the declared widths. -/
theorem C5_packed_length :
    (∀ (a : Address) (t1 t2 : Int), ∃ buf,
      encodePacked [Arg.address a, Arg.i32 t1, Arg.i32 t2] = Except.ok buf
        ∧ buf.length = 26)
    ∧ ∀ args : List Arg, (∀ x ∈ args, x.supported = true) →
        ∃ buf, encodePacked args = Except.ok buf
          ∧ buf.length = (args.map Arg.width).sum := by
  constructor
  · intro a t1 t2
    obtain ⟨buf, hbuf, hlen⟩ :=
      encodePacked_ok [Arg.address a, Arg.i32 t1, Arg.i32 t2] (by simp [Arg.supported])
    exact ⟨buf, hbuf, by simpa [Arg.width] using hlen⟩
  · exact encodePacked_ok

/-- C5 witness: the general length law applied at the program's triple. -/
theorem C5_packed_length_witness :
    ∃ buf, encodePacked [Arg.address ownerPositionAddress, Arg.i32 tickLower,
        Arg.i32 tickUpper] = Except.ok buf
      ∧ buf.length = ([Arg.address ownerPositionAddress, Arg.i32 tickLower,
          Arg.i32 tickUpper].map Arg.width).sum :=
  C5_packed_length.2 _ (by simp [Arg.supported])

/-- C6: a non-negative big.Int whose natural big-endian representation
exceeds 3 bytes is silently truncated to its low-order 3 bytes (its value
modulo 2^24, big-endian), still producing exactly 3 bytes and no error. -/
theorem C6_truncation (n : Nat) (h : 3 < (bigIntBytes n).length) :
    int24Bytes (n : Int) = toBE3 (n % 2 ^ 24)
      ∧ (int24Bytes (n : Int)).length = 3 := by
  have hge : 16777216 ≤ n := by
    by_contra hlt
    have := bigIntBytes_length_le 3 n (by norm_num; omega)
    omega
  refine ⟨?_, int24Bytes_length _⟩
  rw [int24Bytes_ofNat_large n (by omega)]
  norm_num

/-- C6 witness: the theorem applied at n = 0x12345678. -/
theorem C6_truncation_witness :
    3 < (bigIntBytes 305419896).length
      ∧ int24Bytes ((305419896 : Nat) : Int) = toBE3 (305419896 % 2 ^ 24) := by
  have hb : bigIntBytes 305419896 = [0x12, 0x34, 0x56, 0x78] := by
    rw [bigIntBytes_pos 305419896 (by norm_num), bigIntBytes_pos 1193046 (by norm_num),
      bigIntBytes_pos 4660 (by norm_num), bigIntBytes_pos 18 (by norm_num),
      bigIntBytes_zero]
    norm_num
  have h : 3 < (bigIntBytes 305419896).length := by rw [hb]; norm_num
  exact ⟨h, (C6_truncation 305419896 h).1⟩

/-- C7: an argument list containing a value of an unrecognised dynamic type
makes encodePacked fail, and the error message names the type of an
offending value actually present in the list. -/
theorem C7_unsupported_type_error (args : List Arg) (t : String)
    (hmem : Arg.other t ∈ args) :
    ∃ t2, Arg.other t2 ∈ args
      ∧ encodePacked args = Except.error ("unsupported type: " ++ t2) :=
  encodePacked_error_of_other args t hmem

/-- C7 witness: the theorem applied to a singleton unsupported list. -/
theorem C7_unsupported_type_error_witness :
    ∃ t2, Arg.other t2 ∈ [Arg.other "bool"]
      ∧ encodePacked [Arg.other "bool"]
        = Except.error ("unsupported type: " ++ t2) :=
  C7_unsupported_type_error [Arg.other "bool"] "bool" (List.mem_cons_self _ _)

/-- C8: encodePacked is a concatenation homomorphism on successful inputs,
and string and byte-slice values are appended verbatim with no length
prefix or separator. -/
theorem C8_concat_homomorphism :
    (∀ (xs ys : List Arg) (bx byy : List Nat),
      encodePacked xs = Except.ok bx → encodePacked ys = Except.ok byy →
        encodePacked (xs ++ ys) = Except.ok (bx ++ byy))
    ∧ (∀ s : List Nat, encodePacked [Arg.str s] = Except.ok s)
    ∧ (∀ b : List Nat, encodePacked [Arg.bytes b] = Except.ok b) := by
  refine ⟨encodePacked_append, fun s => ?_, fun b => ?_⟩ <;> simp [encodePacked, Except.map]

/-- C8 witness: the homomorphism applied to two concrete singleton lists. -/
theorem C8_concat_homomorphism_witness :
    encodePacked ([Arg.str [1]] ++ [Arg.bytes [2]]) = Except.ok ([1] ++ [2]) :=
  C8_concat_homomorphism.1 [Arg.str [1]] [Arg.bytes [2]] [1] [2] rfl rfl

/-- C9: a response buffer shorter than the 160 bytes the 5-field schema
requires makes the decoder fail with a malformed-response error; no
Position record is produced. -/
theorem C9_short_response_error (raw : List Nat) (h : raw.length < 160) :
    decodePositions raw = Except.error "abi: malformed response: insufficient length" := by
  simp [decodePositions, h]

/-- C9 witness: the theorem applied to the empty response. -/
theorem C9_short_response_error_witness :
    decodePositions [] = Except.error "abi: malformed response: insufficient length" :=
  C9_short_response_error [] (by norm_num)

/-- C10: when any argument is unsupported, encodePacked returns an error
carrying no buffer at all: the Except.error constructor holds only the
message, so no partial encoding of the preceding arguments escapes. -/
theorem C10_no_partial_buffer (args : List Arg)
    (h : ∃ a ∈ args, a.supported = false) :
    ∃ e, encodePacked args = Except.error e := by
  obtain ⟨a, hmem, hsup⟩ := h
  cases a with
  | other t =>
    obtain ⟨t2, -, henc⟩ := encodePacked_error_of_other args t hmem
    exact ⟨_, henc⟩
  | address ad => simp [Arg.supported] at hsup
  | bigInt n => simp [Arg.supported] at hsup
  | i32 v => simp [Arg.supported] at hsup
  | str s => simp [Arg.supported] at hsup
  | bytes b => simp [Arg.supported] at hsup

/-- C10 witness: the theorem applied to a list whose second argument is
unsupported. -/
theorem C10_no_partial_buffer_witness :
    ∃ e, encodePacked [Arg.str [1], Arg.other "int64"] = Except.error e :=
  C10_no_partial_buffer [Arg.str [1], Arg.other "int64"]
    ⟨Arg.other "int64", List.Mem.tail _ (List.Mem.head _), rfl⟩

end UniswapGetPosition
